import Mathlib

/-!
Verification of the architect-linter architecture-compliance engine.

This file shallowly embeds the Rust sources (`src/analyzer.rs`, `src/circular.rs`,
`src/config.rs`, `src/main.rs`) in Lean: strings are lists of characters, the
file system is a finite set of paths, swc parse results are inductive module
items, and the mutually recursive cycle-detection DFS is given a fuel parameter
(with a proof that the fuel supplied by `detect_cycles` is always sufficient).
Theorems `claim_C1` .. `claim_C10` settle the frozen specification claims.
-/

set_option maxHeartbeats 1000000

namespace ArchitectLinter

/-- Rust `String`/`str` values are embedded as lists of characters. -/
abbrev Str := List Char

/-- Models `str::to_lowercase`. On the ASCII data the linter compares, Rust's
full Unicode lowercasing agrees with the per-character simple mapping. -/
def lowerS (s : Str) : Str := s.map Char.toLower

/-- Models `str::starts_with`: `isPrefixL p s` is true when `p` is a prefix of `s`. -/
def isPrefixL : Str → Str → Bool
  | [], _ => true
  | _ :: _, [] => false
  | a :: as, b :: bs => a = b && isPrefixL as bs

/-- Models `str::contains`: `containsSub hay needle` is true when `needle`
occurs contiguously inside `hay`. -/
def containsSub (hay needle : Str) : Bool :=
  isPrefixL needle hay ||
    match hay with
    | [] => false
    | _ :: t => containsSub t needle

/-- Substring occurrence as a proposition: `needle` occurs contiguously in `hay`. -/
def SubstrOf (needle hay : Str) : Prop := ∃ l r, hay = l ++ needle ++ r

theorem isPrefixL_iff (p s : Str) : isPrefixL p s = true ↔ ∃ t, s = p ++ t := by
  induction p generalizing s with
  | nil => simp [isPrefixL]
  | cons a as ih =>
    cases s with
    | nil => simp [isPrefixL]
    | cons b bs =>
      simp only [isPrefixL, Bool.and_eq_true, decide_eq_true_eq, ih, List.cons_append,
        List.cons.injEq]
      constructor
      · rintro ⟨rfl, t, rfl⟩; exact ⟨t, rfl, rfl⟩
      · rintro ⟨t, rfl, rfl⟩; exact ⟨rfl, t, rfl⟩

theorem containsSub_iff (hay needle : Str) :
    containsSub hay needle = true ↔ SubstrOf needle hay := by
  unfold SubstrOf
  induction hay with
  | nil =>
    simp only [containsSub, isPrefixL_iff, Bool.or_false]
    constructor
    · rintro ⟨t, ht⟩
      exact ⟨[], t, by simpa using ht⟩
    · rintro ⟨l, r, h⟩
      have hl : l = [] := by
        cases l with
        | nil => rfl
        | cons x xs => simp at h
      subst hl
      exact ⟨r, by simpa using h⟩
  | cons c t ih =>
    rw [containsSub]
    simp only [Bool.or_eq_true, isPrefixL_iff, ih]
    constructor
    · rintro (⟨r, hr⟩ | ⟨l, r, hlr⟩)
      · exact ⟨[], r, by simpa using hr⟩
      · exact ⟨c :: l, r, by simp [hlr]⟩
    · rintro ⟨l, r, hlr⟩
      cases l with
      | nil => exact Or.inl ⟨r, by simpa using hlr⟩
      | cons x xs =>
        right
        simp only [List.cons_append, List.cons.injEq] at hlr
        exact ⟨xs, r, hlr.2⟩

/-! ## Configuration data model (`config.rs`) -/

/-- `config::Framework`. -/
inductive Framework where
  | NestJS | React | Angular | Express | Unknown
deriving DecidableEq, Repr

/-- `config::ArchPattern`. -/
inductive ArchPattern where
  | Hexagonal | Clean | MVC | Ninguno
deriving DecidableEq, Repr

/-- `config::ForbiddenRule`: the `from` pattern is matched against the path of
the file being checked, the `to` pattern against an import's source string. -/
structure ForbiddenRule where
  «from» : Str
  «to» : Str
deriving DecidableEq, Repr

/-- `config::LinterContext` (the `RuleContext` of the specification). -/
structure LinterContext where
  max_lines : Nat
  framework : Framework
  pattern : ArchPattern
  forbidden_imports : List ForbiddenRule
deriving DecidableEq, Repr

/-! ## Syntax extraction data model

The swc parser is a collaborator; its output, as far as `analyze_file` and
`extract_imports` consume it, is an ordered list of module items. -/

/-- A class method as seen by `analyze_file`: the start/end line numbers that
`cm.lookup_char_pos(m.span.lo/hi).line` yields for its span. -/
structure MethodSpan where
  startLine : Nat
  endLine : Nat
deriving DecidableEq, Repr

/-- One parsed top-level module item, at the granularity `analyze_file` and
`extract_imports` pattern-match on. -/
inductive ModuleItem where
  /-- `ModuleItem::ModuleDecl(ModuleDecl::Import(_))` with its source string. -/
  | importDecl (source : Str)
  /-- `ModuleItem::Stmt(Stmt::Decl(Decl::Class(_)))`: a plain (non-exported)
  top-level class declaration, with its methods in declaration order. -/
  | classDecl (methods : List MethodSpan)
  /-- An `export`ed class declaration — `ModuleItem::ModuleDecl(ModuleDecl::ExportDecl(..))`.
  Neither of `analyze_file`'s two patterns matches it. -/
  | exportClassDecl (methods : List MethodSpan)
  /-- Any other module item (other statements, other module declarations). -/
  | otherItem
deriving DecidableEq, Repr

/-- The violations `analyze_file` can report, one constructor per
`create_error` call site in `analyzer.rs`. -/
inductive Violation where
  /-- The configured-rule error (`analyzer.rs:40-48`), carrying the rule's patterns. -/
  | forbiddenImport (ruleFrom ruleTo : Str)
  /-- The built-in controller/repository error (`analyzer.rs:52-58`). -/
  | controllerRepository
  /-- The method-length error (`analyzer.rs:72-81`). -/
  | methodTooLong (lines maxLines : Nat)
deriving DecidableEq, Repr

/-! ## The rule checker (`analyzer.rs::analyze_file`) -/

/-- The `for rule in &ctx.forbidden_imports` loop of `analyze_file`
(`analyzer.rs:34-49`): the first rule whose lowercased `from` is contained in
the lowercased file path and whose lowercased `to` is contained in the
lowercased import source. -/
def firstMatchingRule (filePathLower sourceLower : Str) :
    List ForbiddenRule → Option ForbiddenRule
  | [] => none
  | r :: rs =>
    if containsSub filePathLower (lowerS r.«from») &&
        containsSub sourceLower (lowerS r.«to») then some r
    else firstMatchingRule filePathLower sourceLower rs

/-- The per-import checks of `analyze_file` (`analyzer.rs:29-59`): configured
rules in configuration order, then the fixed controller/repository rule. -/
def checkImport (ctx : LinterContext) (filePathLower source0 : Str) : Option Violation :=
  let source := lowerS source0
  match firstMatchingRule filePathLower source ctx.forbidden_imports with
  | some r => some (.forbiddenImport r.«from» r.«to»)
  | none =>
    if containsSub filePathLower ("controller".toList) &&
        containsSub source (".repository".toList) then
      some .controllerRepository
    else none

/-- The method-length loop of `analyze_file` over one class body
(`analyzer.rs:66-83`): `lines = hi - lo`, first method with `lines > max_lines`
yields the violation. -/
def checkMethods (maxLines : Nat) : List MethodSpan → Option Violation
  | [] => none
  | m :: ms =>
    let lines := m.endLine - m.startLine
    if lines > maxLines then some (.methodTooLong lines maxLines)
    else checkMethods maxLines ms

/-- One iteration of `analyze_file`'s `for item in &module.body` loop:
only import declarations and plain class declaration statements are examined. -/
def checkItem (ctx : LinterContext) (filePathLower : Str) : ModuleItem → Option Violation
  | .importDecl src => checkImport ctx filePathLower src
  | .classDecl methods => checkMethods ctx.max_lines methods
  | .exportClassDecl _ => none
  | .otherItem => none

/-- The item loop of `analyze_file`, after the file path has been lowercased. -/
def analyzeItems (ctx : LinterContext) (filePathLower : Str) :
    List ModuleItem → Except Violation Unit
  | [] => .ok ()
  | item :: rest =>
    match checkItem ctx filePathLower item with
    | some v => .error v
    | none => analyzeItems ctx filePathLower rest

/-- `analyzer::analyze_file` (`analyzer.rs:7-87`) after a successful parse:
walks the module items in declaration order and returns the first violation. -/
def analyze_file (ctx : LinterContext) (filePath : Str)
    (items : List ModuleItem) : Except Violation Unit :=
  analyzeItems ctx (lowerS filePath) items

/-- The rule-match proposition of the specification: the lowercased file path
contains the rule's lowercased `from` pattern and the lowercased import source
contains the rule's lowercased `to` pattern. -/
def RuleMatches (filePathLower sourceLower : Str) (r : ForbiddenRule) : Prop :=
  SubstrOf (lowerS r.«from») filePathLower ∧ SubstrOf (lowerS r.«to») sourceLower

theorem ruleMatches_iff_bool (fl sl : Str) (r : ForbiddenRule) :
    (containsSub fl (lowerS r.«from») && containsSub sl (lowerS r.«to»)) = true ↔
      RuleMatches fl sl r := by
  rw [Bool.and_eq_true, containsSub_iff, containsSub_iff]; rfl

theorem firstMatchingRule_eq_some_iff (fl sl : Str) (rules : List ForbiddenRule)
    (r : ForbiddenRule) :
    firstMatchingRule fl sl rules = some r ↔
      ∃ pre post, rules = pre ++ r :: post ∧ RuleMatches fl sl r ∧
        ∀ r' ∈ pre, ¬ RuleMatches fl sl r' := by
  induction rules with
  | nil =>
    simp only [firstMatchingRule]
    constructor
    · intro h; cases h
    · rintro ⟨pre, post, h, -, -⟩; cases pre <;> simp at h
  | cons r0 rs ih =>
    rw [firstMatchingRule]
    by_cases hm : (containsSub fl (lowerS r0.«from») && containsSub sl (lowerS r0.«to»)) = true
    · rw [if_pos hm]
      rw [ruleMatches_iff_bool] at hm
      constructor
      · intro h
        cases h
        exact ⟨[], rs, rfl, hm, by simp⟩
      · rintro ⟨pre, post, heq, -, hpre⟩
        cases pre with
        | nil => simp at heq; simp [heq.1]
        | cons p ps =>
          exfalso
          simp only [List.cons_append, List.cons.injEq] at heq
          exact hpre p (by simp) (heq.1 ▸ hm)
    · rw [if_neg hm, ih]
      rw [ruleMatches_iff_bool] at hm
      constructor
      · rintro ⟨pre, post, heq, hr, hpre⟩
        refine ⟨r0 :: pre, post, by simp [heq], hr, ?_⟩
        intro r' hr'
        rcases List.mem_cons.mp hr' with h | h
        · exact h ▸ hm
        · exact hpre r' h
      · rintro ⟨pre, post, heq, hr, hpre⟩
        cases pre with
        | nil =>
          exfalso
          simp only [List.nil_append, List.cons.injEq] at heq
          exact hm (heq.1 ▸ hr)
        | cons p ps =>
          simp only [List.cons_append, List.cons.injEq] at heq
          exact ⟨ps, post, heq.2, hr, fun r' h => hpre r' (by simp [h])⟩

theorem firstMatchingRule_eq_none_iff (fl sl : Str) (rules : List ForbiddenRule) :
    firstMatchingRule fl sl rules = none ↔ ∀ r ∈ rules, ¬ RuleMatches fl sl r := by
  induction rules with
  | nil => simp [firstMatchingRule]
  | cons r0 rs ih =>
    rw [firstMatchingRule]
    by_cases hm : (containsSub fl (lowerS r0.«from») && containsSub sl (lowerS r0.«to»)) = true
    · rw [if_pos hm]
      rw [ruleMatches_iff_bool] at hm
      simp only [List.mem_cons]
      constructor
      · intro h; cases h
      · intro h; exact absurd hm (h r0 (Or.inl rfl))
    · rw [if_neg hm, ih]
      rw [ruleMatches_iff_bool] at hm
      simp only [List.mem_cons]
      constructor
      · intro h r' hr'
        rcases hr' with h' | h'
        · exact h' ▸ hm
        · exact h r' h'
      · intro h r' hr'; exact h r' (Or.inr hr')

/-! ## Claims C6 to C9: the rule checker -/

/-- C6. For every file and every configured `ForbiddenRule` list, the Rule
Checker tests each import's rules in configuration order, where a rule matches
if and only if the lower-cased file path contains the lower-cased `from`
pattern and the lower-cased import source contains the lower-cased `to`
pattern; on the first matching rule it returns a `ForbiddenImport` violation
immediately, without scanning the rest of the file (hence at most one violation
per file, the checker returning `Except` can report at most one anyway). -/
theorem claim_C6 (ctx : LinterContext) (fp src : Str) (rest : List ModuleItem) :
    (∀ r, firstMatchingRule (lowerS fp) (lowerS src) ctx.forbidden_imports = some r ↔
        ∃ pre post, ctx.forbidden_imports = pre ++ r :: post ∧
          RuleMatches (lowerS fp) (lowerS src) r ∧
          ∀ r' ∈ pre, ¬ RuleMatches (lowerS fp) (lowerS src) r') ∧
    (∀ r, firstMatchingRule (lowerS fp) (lowerS src) ctx.forbidden_imports = some r →
        analyze_file ctx fp (.importDecl src :: rest) =
          .error (.forbiddenImport r.«from» r.«to»)) := by
  constructor
  · intro r; exact firstMatchingRule_eq_some_iff _ _ _ _
  · intro r h
    simp only [analyze_file, analyzeItems, checkItem, checkImport, h]

/-- Witness for C6, instantiating the specification's example: a configured
rule `from = "presentation"`, `to = "infrastructure"`, a file at
`src/presentation/x.ts` importing `../infrastructure/y`. -/
theorem claim_C6_witness :
    analyze_file ⟨40, .NestJS, .MVC, [⟨"presentation".toList, "infrastructure".toList⟩]⟩
        ("src/presentation/x.ts".toList) [.importDecl ("../infrastructure/y".toList)] =
      .error (.forbiddenImport ("presentation".toList) ("infrastructure".toList)) :=
  (claim_C6 ⟨40, .NestJS, .MVC, [⟨"presentation".toList, "infrastructure".toList⟩]⟩
      ("src/presentation/x.ts".toList) ("../infrastructure/y".toList) []).2
    ⟨"presentation".toList, "infrastructure".toList⟩ (by decide)

/-- C7. A file whose path contains "controller" (case-insensitively) with
an import whose source contains ".repository" receives a violation from the
built-in rule whenever no configured rule matches that import — in
particular whenever the configured list is empty — and the built-in rule is
applied for an import only when no configured rule matched it. -/
theorem claim_C7 (ctx : LinterContext) (fp src : Str) (rest : List ModuleItem) :
    (SubstrOf ("controller".toList) (lowerS fp) →
     SubstrOf (".repository".toList) (lowerS src) →
     firstMatchingRule (lowerS fp) (lowerS src) ctx.forbidden_imports = none →
     analyze_file ctx fp (.importDecl src :: rest) = .error .controllerRepository) ∧
    (∀ r, firstMatchingRule (lowerS fp) (lowerS src) ctx.forbidden_imports = some r →
     analyze_file ctx fp (.importDecl src :: rest) ≠ .error .controllerRepository) := by
  constructor
  · intro hc hr hnone
    rw [← containsSub_iff] at hc hr
    simp only [analyze_file, analyzeItems, checkItem, checkImport, hnone, hc, hr,
      Bool.and_self, if_pos]
  · intro r h
    simp only [analyze_file, analyzeItems, checkItem, checkImport, h]
    intro hcontra
    cases hcontra

/-- Witness for C7: the empty configured rule set, a controller file importing
a repository module, as in the specification's example. -/
theorem claim_C7_witness :
    analyze_file ⟨40, .NestJS, .MVC, []⟩ ("src/user.controller.ts".toList)
        [.importDecl ("./user.repository".toList)] = .error .controllerRepository :=
  (claim_C7 ⟨40, .NestJS, .MVC, []⟩ ("src/user.controller.ts".toList)
      ("./user.repository".toList) []).1
    ⟨"src/user.".toList, ".ts".toList, by decide⟩
    ⟨"./user".toList, [], by decide⟩ rfl

/-- C8. Methods of a class are checked in declaration order with
`lineCount = endLine - startLine`: if every method of a body is within the
limit no violation arises from it, and the first method strictly exceeding
`maxLines` is reported immediately — later methods, and all later items of the
file, are not examined. -/
theorem claim_C8 (ctx : LinterContext) (fp : Str) (rest : List ModuleItem)
    (pre post : List MethodSpan) (m : MethodSpan) :
    (∀ ms : List MethodSpan, (∀ x ∈ ms, x.endLine - x.startLine ≤ ctx.max_lines) →
        checkMethods ctx.max_lines ms = none) ∧
    ((∀ x ∈ pre, x.endLine - x.startLine ≤ ctx.max_lines) →
     m.endLine - m.startLine > ctx.max_lines →
     analyze_file ctx fp (.classDecl (pre ++ m :: post) :: rest) =
       .error (.methodTooLong (m.endLine - m.startLine) ctx.max_lines)) := by
  have hok : ∀ ms : List MethodSpan, (∀ x ∈ ms, x.endLine - x.startLine ≤ ctx.max_lines) →
      checkMethods ctx.max_lines ms = none := by
    intro ms hms
    induction ms with
    | nil => rfl
    | cons x xs ih =>
      have hx := hms x (by simp)
      rw [checkMethods, if_neg (by omega)]
      exact ih fun y hy => hms y (by simp [hy])
  refine ⟨hok, fun hpre hm => ?_⟩
  have hfirst : checkMethods ctx.max_lines (pre ++ m :: post) =
      some (.methodTooLong (m.endLine - m.startLine) ctx.max_lines) := by
    induction pre with
    | nil => rw [List.nil_append, checkMethods, if_pos (by omega)]
    | cons x xs ih =>
      have hx := hpre x (by simp)
      rw [List.cons_append, checkMethods, if_neg (by omega)]
      exact ih fun y hy => hpre y (by simp [hy])
  simp only [analyze_file, analyzeItems, checkItem, hfirst]

/-- Witness for C8, instantiating the specification's example: methods with
line counts 5, 12 and 200 and a limit of 60 — the 200-line method (and only
it) is reported. -/
theorem claim_C8_witness :
    (∀ x ∈ [(⟨10, 15⟩ : MethodSpan), ⟨20, 32⟩], x.endLine - x.startLine ≤ 60) ∧
    analyze_file ⟨60, .NestJS, .MVC, []⟩ ("src/big.ts".toList)
        [.classDecl ([⟨10, 15⟩, ⟨20, 32⟩] ++ (⟨40, 240⟩ : MethodSpan) :: [])] =
      .error (.methodTooLong 200 60) :=
  ⟨by decide,
   (claim_C8 ⟨60, .NestJS, .MVC, []⟩ ("src/big.ts".toList) [] [⟨10, 15⟩, ⟨20, 32⟩] []
      ⟨40, 240⟩).2 (by decide) (by decide)⟩

/-- C9. The method-length rule inspects only plain (non-exported) top-level
class declaration statements: if a file contains no such statement — in
particular if every class in it is exported — `analyze_file` never returns a
`MethodTooLong` violation, regardless of method lengths. -/
theorem claim_C9 (ctx : LinterContext) (fp : Str) (items : List ModuleItem) :
    (∀ i ∈ items, ∀ ms : List MethodSpan, i ≠ .classDecl ms) →
    ∀ lines mx : Nat, analyze_file ctx fp items ≠ .error (.methodTooLong lines mx) := by
  intro hitems lines mx
  unfold analyze_file
  induction items with
  | nil => intro h; cases h
  | cons item rest ih =>
    rw [analyzeItems]
    have hnotclass := hitems item (by simp)
    have hcheck : ∀ v, checkItem ctx (lowerS fp) item = some v →
        v ≠ .methodTooLong lines mx := by
      intro v hv
      cases item with
      | importDecl src =>
        simp only [checkItem, checkImport] at hv
        rcases hfm : firstMatchingRule (lowerS fp) (lowerS src) ctx.forbidden_imports with
          _ | r
        · rw [hfm] at hv
          by_cases hb : (containsSub (lowerS fp) ("controller".toList) &&
              containsSub (lowerS src) (".repository".toList)) = true
          · rw [if_pos hb] at hv
            cases hv; intro h; cases h
          · rw [if_neg hb] at hv; cases hv
        · rw [hfm] at hv
          cases hv; intro h; cases h
      | classDecl ms => exact absurd rfl (hnotclass ms)
      | exportClassDecl ms => cases hv
      | otherItem => cases hv
    rcases hci : checkItem ctx (lowerS fp) item with _ | v
    · exact ih fun i hi => hitems i (by simp [hi])
    · intro h
      cases h
      exact hcheck _ hci rfl

/-- Witness for C9: a file whose only class is exported and has a 500-line
method is accepted under a 40-line limit. -/
theorem claim_C9_witness :
    analyze_file ⟨40, .NestJS, .MVC, []⟩ ("src/huge.ts".toList)
        [.exportClassDecl [⟨1, 501⟩]] ≠ .error (.methodTooLong 500 40) :=
  claim_C9 ⟨40, .NestJS, .MVC, []⟩ ("src/huge.ts".toList)
    [.exportClassDecl [⟨1, 501⟩]]
    (by rintro i hi ms h; simp only [List.mem_singleton] at hi; subst hi; cases h) 500 40

/-! ## Claim C10: configuration loading (`main.rs::setup_or_load_config`) -/

/-- `serde_json::Value`, restricted to what `setup_or_load_config` consumes.
Numbers are modelled as integers; `asU64` fails on negative ones exactly as
`Value::as_u64` fails on negative or fractional numbers. -/
inductive Json where
  | null
  | bool (b : Bool)
  | num (n : Int)
  | str (s : Str)
  | arr (xs : List Json)
  | obj (fields : List (Str × Json))

/-- Field lookup inside a JSON object's field list. -/
def jLookup : List (Str × Json) → Str → Option Json
  | [], _ => none
  | (k, v) :: rest, key => if k = key then some v else jLookup rest key

/-- `json["key"]`: the field of an object, and `Null` for a missing field or a
non-object value (`serde_json`'s `Index` impl). -/
def jIndex (j : Json) (key : Str) : Json :=
  match j with
  | .obj fields => (jLookup fields key).getD .null
  | _ => .null

/-- `Value::as_u64`: defined only on non-negative integer numbers. -/
def jAsU64 : Json → Option Nat
  | .num n => if 0 ≤ n then some n.toNat else none
  | _ => none

/-- `Value::as_str`. -/
def jAsStr : Json → Option Str
  | .str s => some s
  | _ => none

/-- `Value::as_array`. -/
def jAsArray : Json → Option (List Json)
  | .arr xs => some xs
  | _ => none

/-- The closure of the `filter_map` in `setup_or_load_config` (`main.rs:98-110`):
a JSON rule entry yields a `ForbiddenRule` only when both `from` and `to` are
present as strings. -/
def ruleOfJson (rule : Json) : Option ForbiddenRule :=
  match jAsStr (jIndex rule ("from".toList)), jAsStr (jIndex rule ("to".toList)) with
  | some f, some t => some ⟨f, t⟩
  | _, _ => none

/-- `setup_or_load_config` (`main.rs:82-118`), in the branch where
`architect.json` exists and parses as JSON: every field is read with a
default — `max_lines_per_function` defaults to 40, `architecture_pattern` to
MVC, `forbidden_imports` to the empty list — and the context is returned
without any possibility of error. The framework comes from the external
`detector` collaborator and is a parameter here. -/
def setup_or_load_config (j : Json) (framework : Framework) : LinterContext :=
  let max_lines := (jAsU64 (jIndex j ("max_lines_per_function".toList))).getD 40
  let pattern_str := (jAsStr (jIndex j ("architecture_pattern".toList))).getD ("MVC".toList)
  let pattern :=
    if pattern_str = "Hexagonal".toList then ArchPattern.Hexagonal
    else if pattern_str = "Clean".toList then ArchPattern.Clean
    else ArchPattern.MVC
  let forbidden_imports :=
    match jAsArray (jIndex j ("forbidden_imports".toList)) with
    | some rules => rules.filterMap ruleOfJson
    | none => []
  ⟨max_lines, framework, pattern, forbidden_imports⟩

/-- C10. When `architect.json` exists and is syntactically valid JSON, the run
proceeds without a configuration error for any document content: a missing or
non-unsigned-integer `max_lines_per_function` yields the default limit 40, and
a missing `forbidden_imports` array yields the empty rule list. (`setup_or_load_config`
is a total function of the parsed document, so no abort is possible in this
branch.) -/
theorem claim_C10 (j : Json) (fw : Framework) :
    (jAsU64 (jIndex j ("max_lines_per_function".toList)) = none →
      (setup_or_load_config j fw).max_lines = 40) ∧
    (jAsArray (jIndex j ("forbidden_imports".toList)) = none →
      (setup_or_load_config j fw).forbidden_imports = []) := by
  constructor
  · intro h; simp only [setup_or_load_config, h, Option.getD_none]
  · intro h; simp only [setup_or_load_config, h]

/-- Witness for C10: a valid JSON object carrying a string where the line limit
should be and no `forbidden_imports` field at all. -/
theorem claim_C10_witness :
    (setup_or_load_config (.obj [("max_lines_per_function".toList, .str ("many".toList))])
        .NestJS).max_lines = 40 ∧
    (setup_or_load_config (.obj [("max_lines_per_function".toList, .str ("many".toList))])
        .NestJS).forbidden_imports = [] :=
  ⟨(claim_C10 (.obj [("max_lines_per_function".toList, .str ("many".toList))]) .NestJS).1
      rfl,
   (claim_C10 (.obj [("max_lines_per_function".toList, .str ("many".toList))]) .NestJS).2
      rfl⟩

/-! ## Paths and the file system (`circular.rs` collaborator model)

Paths are strings. The functions below model the `std::path` operations that
`resolve_import_path` and `normalize_file_path` perform on them, for
forward-slash paths without trailing slashes (the only shape the linter
produces). The file system itself is the set of entries that exist, consulted
through the OS's `.`/`..`-resolving lookup. -/

/-- `Path::parent`: the path with its final component removed; `none` for the
root and the empty path, the empty path for a bare file name. -/
def parentDir (p : Str) : Option Str :=
  if p = [] ∨ p = ['/'] then none
  else
    let dir := (p.reverse.dropWhile (fun c => c ≠ '/')).reverse
    if dir = [] then some []
    else if dir = ['/'] then some ['/']
    else some dir.dropLast

/-- `Path::join` / `PathBuf::push`: an absolute right operand replaces the
left one, otherwise the operands are joined with a separator. -/
def joinPath (dir rel : Str) : Str :=
  if rel.head? = some '/' then rel
  else if dir = [] then rel
  else if dir.getLast? = some '/' then dir ++ rel
  else dir ++ '/' :: rel

/-- `Path::file_stem` of a file name: the part before the last dot, except
that a name without a dot, or whose only dot is the leading character, has no
extension and is its own stem. -/
def fileStem (name : Str) : Str :=
  let revName := name.reverse
  let afterRev := revName.takeWhile (fun c => c ≠ '.')
  if afterRev.length = name.length then name
  else
    let stem := ((revName.dropWhile (fun c => c ≠ '.')).tail).reverse
    if stem = [] then name
    else stem

/-- `Path::with_extension`: REPLACES the extension of the final component (and
appends one when the component has none); a path without a file name (empty,
`.` or `..` final component) is returned unchanged. -/
def with_extension (p ext : Str) : Str :=
  let fn := (p.reverse.takeWhile (fun c => c ≠ '/')).reverse
  let dir := (p.reverse.dropWhile (fun c => c ≠ '/')).reverse
  if fn = [] ∨ fn = ['.'] ∨ fn = ['.', '.'] then p
  else dir ++ fileStem fn ++ '.' :: ext

/-- Split a path at `'/'` separators. -/
def splitSlash : Str → List Str
  | [] => [[]]
  | c :: rest =>
    let r := splitSlash rest
    if c = '/' then [] :: r
    else
      match r with
      | [] => [[c]]
      | s :: ss => (c :: s) :: ss

/-- Resolve `.` and `..` segments the way the operating system does when it
answers a lookup (symlink-free model). -/
def resolveDots (segs : List Str) : List Str :=
  segs.foldl
    (fun acc s =>
      if s = ['.'] ∨ s = [] then acc
      else if s = ['.', '.'] then acc.dropLast
      else acc ++ [s])
    []

/-- Rejoin path segments with `'/'`. -/
def joinSegs : List Str → Str
  | [] => []
  | [s] => s
  | s :: rest => s ++ '/' :: joinSegs rest

/-- The normal form the operating system resolves a path to before looking it
up: `.` and `..` segments removed, duplicate separators collapsed. -/
def normalizeOS (p : Str) : Str :=
  let isAbs := p.head? = some '/'
  let segs := resolveDots (splitSlash p)
  (if isAbs then ['/'] else []) ++ joinSegs segs

/-- The file system: the set of entries (files and directories) that exist,
each stored in OS-normal form. -/
structure FS where
  entries : List Str

/-- `Path::exists`: the OS resolves the path and looks it up. -/
def FS.existsP (fs : FS) (p : Str) : Bool := decide (normalizeOS p ∈ fs.entries)

/-- The `for ext in &extensions` loop of `resolve_import_path`
(`circular.rs:184-190`): first extension whose `with_extension` candidate
exists. -/
def tryExtensions (fs : FS) (resolved : Str) : List Str → Option Str
  | [] => none
  | ext :: rest =>
    let with_ext := with_extension resolved ext
    if fs.existsP with_ext then some with_ext
    else tryExtensions fs resolved rest

/-- `CircularDependencyAnalyzer::resolve_import_path` (`circular.rs:168-209`):
skip external imports, then resolve relative to the importing file's directory
by trying `with_extension` for ts/tsx/js/jsx, then `index.ts`/`index.js`, then
the unmodified path. -/
def resolve_import_path (fs : FS) (current_file import_path : Str) : Option Str :=
  if isPrefixL ['@'] import_path ||
      isPrefixL ("node_modules".toList) import_path ||
      (!isPrefixL ['.'] import_path && !isPrefixL ['/'] import_path) then
    none
  else
    match parentDir current_file with
    | none => none
    | some current_dir =>
      let resolved := joinPath current_dir import_path
      match tryExtensions fs resolved
          [("ts".toList), ("tsx".toList), ("js".toList), ("jsx".toList)] with
      | some w => some w
      | none =>
        let index_ts := joinPath resolved ("index.ts".toList)
        let index_js := joinPath resolved ("index.js".toList)
        if fs.existsP index_ts then some index_ts
        else if fs.existsP index_js then some index_js
        else if fs.existsP resolved then some resolved
        else none

/-! ## Claim C2: import resolution order -/

/-- The candidate list the code actually probes, in order: the specifier with
its extension REPLACED by ts, tsx, js, jsx, then `index.ts` and `index.js`
under it, then the unmodified path. -/
def resolveCandidates (resolved : Str) : List Str :=
  [with_extension resolved ("ts".toList), with_extension resolved ("tsx".toList),
   with_extension resolved ("js".toList), with_extension resolved ("jsx".toList),
   joinPath resolved ("index.ts".toList), joinPath resolved ("index.js".toList),
   resolved]

/-- First existing candidate. -/
def firstExisting (fs : FS) : List Str → Option Str
  | [] => none
  | c :: cs => if fs.existsP c then some c else firstExisting fs cs

/-- Modelled from the claim's words for C2: candidate resolution that APPENDS
each of the extensions ts, tsx, js, jsx to the specifier (`<spec>.ts`, ...),
then tries `<path>/index.ts`, `<path>/index.js`, then the unmodified path, and
otherwise reports no resolution. This is what claim C2 asserts the code does;
it differs from the code's `with_extension`, which replaces an existing
extension. -/
def resolveAppendClaim (fs : FS) (current_file import_path : Str) : Option Str :=
  if isPrefixL ['@'] import_path ||
      isPrefixL ("node_modules".toList) import_path ||
      (!isPrefixL ['.'] import_path && !isPrefixL ['/'] import_path) then
    none
  else
    match parentDir current_file with
    | none => none
    | some current_dir =>
      let resolved := joinPath current_dir import_path
      firstExisting fs
        [resolved ++ '.' :: ("ts".toList), resolved ++ '.' :: ("tsx".toList),
         resolved ++ '.' :: ("js".toList), resolved ++ '.' :: ("jsx".toList),
         joinPath resolved ("index.ts".toList), joinPath resolved ("index.js".toList),
         resolved]

/-- Counterexample to C2 as stated. The file system contains only
`/r/src/a.ts`; the file `/r/src/m.ts` imports `./a.b`. Appending extensions to
the specifier (as the claim describes) resolves nothing, so the claim requires
the import to be dropped — but the code's `with_extension` REPLACES the
specifier's `.b` suffix and resolves the import to `/r/src/./a.ts`. -/
theorem claim_C2_counterexample :
    resolve_import_path ⟨[("/r/src/a.ts".toList)]⟩ ("/r/src/m.ts".toList)
        ("./a.b".toList) = some ("/r/src/./a.ts".toList) ∧
    resolveAppendClaim ⟨[("/r/src/a.ts".toList)]⟩ ("/r/src/m.ts".toList)
        ("./a.b".toList) = none := by
  constructor <;> rfl

theorem tryExtensions_eq_firstExisting (fs : FS) (resolved : Str) (exts : List Str) :
    tryExtensions fs resolved exts =
      firstExisting fs (exts.map (fun e => with_extension resolved e)) := by
  induction exts with
  | nil => rfl
  | cons e es ih =>
    rw [List.map_cons, tryExtensions, firstExisting]
    by_cases h : fs.existsP (with_extension resolved e) = true
    · rw [if_pos h, if_pos h]
    · rw [if_neg h, if_neg h, ih]

theorem firstExisting_append (fs : FS) (l₁ l₂ : List Str) :
    firstExisting fs (l₁ ++ l₂) =
      match firstExisting fs l₁ with
      | some w => some w
      | none => firstExisting fs l₂ := by
  induction l₁ with
  | nil => rfl
  | cons x xs ih =>
    rw [List.cons_append, firstExisting, firstExisting]
    by_cases h : fs.existsP x = true
    · rw [if_pos h, if_pos h]
    · rw [if_neg h, if_neg h, ih]

/-- C2 as amended: for every relative or absolute specifier (leading `.` or
`/`; other specifiers, and `@`- or `node_modules`-prefixed ones, are skipped
as external), resolution joins the specifier onto the importing file's
directory and probes, in order: the joined path with its final extension
REPLACED by (or, when it has none, extended with) each of ts, tsx, js, jsx;
then `<path>/index.ts` and `<path>/index.js`; then the unmodified path; if
nothing exists the import resolves to nothing. -/
theorem claim_C2_amended (fs : FS) (f imp : Str)
    (h : isPrefixL ['.'] imp = true ∨ isPrefixL ['/'] imp = true) :
    resolve_import_path fs f imp =
      match parentDir f with
      | none => none
      | some d => firstExisting fs (resolveCandidates (joinPath d imp)) := by
  obtain ⟨c, rest, rfl, hc⟩ : ∃ c rest, imp = c :: rest ∧ (c = '.' ∨ c = '/') := by
    cases imp with
    | nil => simp [isPrefixL] at h
    | cons c rest =>
      refine ⟨c, rest, rfl, ?_⟩
      rcases h with h | h <;> simp only [isPrefixL, Bool.and_eq_true,
        decide_eq_true_eq] at h
      · exact Or.inl h.1.symm
      · exact Or.inr h.1.symm
  have hskip : (isPrefixL ['@'] (c :: rest) ||
      isPrefixL ("node_modules".toList) (c :: rest) ||
      (!isPrefixL ['.'] (c :: rest) && !isPrefixL ['/'] (c :: rest))) = false := by
    rcases hc with rfl | rfl <;> simp [isPrefixL]
  rw [resolve_import_path, if_neg (by rw [hskip]; simp)]
  cases hp : parentDir f with
  | none => rfl
  | some d =>
    have hcand : resolveCandidates (joinPath d (c :: rest)) =
        ([("ts".toList), ("tsx".toList), ("js".toList), ("jsx".toList)].map
          (fun e => with_extension (joinPath d (c :: rest)) e)) ++
        [joinPath (joinPath d (c :: rest)) ("index.ts".toList),
         joinPath (joinPath d (c :: rest)) ("index.js".toList),
         joinPath d (c :: rest)] := rfl
    dsimp only
    rw [hcand, firstExisting_append, ← tryExtensions_eq_firstExisting]
    cases tryExtensions fs (joinPath d (c :: rest))
        [("ts".toList), ("tsx".toList), ("js".toList), ("jsx".toList)] with
    | some w => rfl
    | none => rfl

/-- Witness for the amended C2 at the counterexample's input. -/
theorem claim_C2_amended_witness :
    resolve_import_path ⟨[("/r/src/a.ts".toList)]⟩ ("/r/src/m.ts".toList)
        ("./a.b".toList) =
      firstExisting ⟨[("/r/src/a.ts".toList)]⟩
        (resolveCandidates (joinPath ("/r/src".toList) ("./a.b".toList))) :=
  claim_C2_amended ⟨[("/r/src/a.ts".toList)]⟩ ("/r/src/m.ts".toList)
    ("./a.b".toList) (Or.inl (by decide))

/-! ## The dependency graph builder (`circular.rs::build_graph`) -/

/-- The dependency graph `HashMap<String, Vec<String>>`, embedded as an
association list with unique keys (insertion order stands in for the map's
arbitrary iteration order). -/
abbrev Graph := List (Str × List Str)

/-- `HashMap::get`. -/
def graphGet : Graph → Str → Option (List Str)
  | [], _ => none
  | (k, vs) :: rest, n => if k = n then some vs else graphGet rest n

/-- `graph.entry(k).or_insert_with(Vec::new)` as a whole-map operation: insert
an empty entry when the key is absent. -/
def entryOrInsert (g : Graph) (k : Str) : Graph :=
  match graphGet g k with
  | some _ => g
  | none => g ++ [(k, [])]

/-- `graph.entry(k).or_insert_with(Vec::new).push(v)`. -/
def pushEdge : Graph → Str → Str → Graph
  | [], k, v => [(k, [v])]
  | (k0, vs) :: rest, k, v =>
    if k0 = k then (k0, vs ++ [v]) :: rest
    else (k0, vs) :: pushEdge rest k v

/-- `normalize_file_path` (`circular.rs:212-222`): strip the project root,
forward slashes, lowercase. -/
def normalize_file_path (project_root p : Str) : Str :=
  let stripped :=
    if p = project_root then []
    else if isPrefixL (project_root ++ ['/']) p = true then
      p.drop (project_root.length + 1)
    else p
  lowerS (stripped.map (fun c => if c = '\\' then '/' else c))

/-- `is_internal_dependency` (`circular.rs:225-228`). -/
def is_internal_dependency (p : Str) : Bool := !(containsSub p ("node_modules".toList))

/-- The `for import_path in imports` loop of `build_graph` (`circular.rs:47-59`):
each resolvable, internal import is pushed onto the CURRENT file's edge list. -/
def processImports (fs : FS) (project_root current_file current_key : Str) :
    List Str → Graph → Graph
  | [], g => g
  | import_path :: rest, g =>
    let g' :=
      match resolve_import_path fs current_file import_path with
      | some resolved =>
        let normalized_import := normalize_file_path project_root resolved
        if is_internal_dependency normalized_import then
          pushEdge g current_key normalized_import
        else g
      | none => g
    processImports fs project_root current_file current_key rest g'

/-- `build_graph` (`circular.rs:34-63`). `importsOf` abstracts `extract_imports`
(the swc re-parse of each file), modelled as always succeeding — the claims
under verification concern completed runs, and a parse failure aborts
`build_graph` altogether. -/
def build_graph (fs : FS) (project_root : Str) (importsOf : Str → List Str) :
    List Str → Graph → Graph
  | [], g => g
  | file_path :: rest, g =>
    let imports := importsOf file_path
    let current_key := normalize_file_path project_root file_path
    let g1 := entryOrInsert g current_key
    let g2 := processImports fs project_root file_path current_key imports g1
    build_graph fs project_root importsOf rest g2

/-! ## Claim C5: graph keys -/

theorem graphGet_some_mem_keys (g : Graph) (k : Str) (vs : List Str)
    (h : graphGet g k = some vs) : k ∈ g.map Prod.fst := by
  induction g with
  | nil => cases h
  | cons e rest ih =>
    obtain ⟨k0, vs0⟩ := e
    rw [graphGet] at h
    by_cases hk : k0 = k
    · simp [hk]
    · rw [if_neg hk] at h
      simp [ih h]

theorem mem_keys_entryOrInsert (g : Graph) (k k' : Str) :
    k' ∈ (entryOrInsert g k).map Prod.fst ↔ k' = k ∨ k' ∈ g.map Prod.fst := by
  unfold entryOrInsert
  cases hg : graphGet g k with
  | some vs =>
    constructor
    · exact Or.inr
    · rintro (rfl | h)
      · exact graphGet_some_mem_keys g k' vs hg
      · exact h
  | none => simp [or_comm]

theorem mem_keys_pushEdge (g : Graph) (k v k' : Str) :
    k' ∈ (pushEdge g k v).map Prod.fst ↔ k' = k ∨ k' ∈ g.map Prod.fst := by
  induction g with
  | nil => simp [pushEdge]
  | cons e rest ih =>
    obtain ⟨k0, vs0⟩ := e
    rw [pushEdge]
    by_cases hk : k0 = k
    · subst hk; simp
    · rw [if_neg hk]
      simp only [List.map_cons, List.mem_cons, ih]
      tauto

theorem mem_keys_processImports (fs : FS) (root cf key : Str) (imps : List Str)
    (g : Graph) (hkey : key ∈ g.map Prod.fst) (k' : Str) :
    k' ∈ (processImports fs root cf key imps g).map Prod.fst ↔ k' ∈ g.map Prod.fst := by
  induction imps generalizing g with
  | nil => exact Iff.rfl
  | cons imp rest ih =>
    rw [processImports]
    cases hres : resolve_import_path fs cf imp with
    | none => exact ih g hkey
    | some resolved =>
      dsimp only
      by_cases hint : is_internal_dependency (normalize_file_path root resolved) = true
      · rw [if_pos hint]
        rw [ih _ ((mem_keys_pushEdge g key _ key).mpr (Or.inl rfl))]
        rw [mem_keys_pushEdge]
        constructor
        · rintro (rfl | h)
          · exact hkey
          · exact h
        · exact Or.inr
      · rw [if_neg hint]
        exact ih g hkey

theorem mem_keys_build_graph (fs : FS) (root : Str) (importsOf : Str → List Str)
    (files : List Str) (g : Graph) (k : Str) :
    k ∈ (build_graph fs root importsOf files g).map Prod.fst ↔
      k ∈ g.map Prod.fst ∨ ∃ f ∈ files, k = normalize_file_path root f := by
  induction files generalizing g with
  | nil => simp [build_graph]
  | cons f rest ih =>
    rw [build_graph]
    rw [ih, mem_keys_processImports fs root f _ _ _
      ((mem_keys_entryOrInsert g _ _).mpr (Or.inl rfl)), mem_keys_entryOrInsert]
    simp only [List.mem_cons]
    constructor
    · rintro ((rfl | h) | ⟨f', hf', rfl⟩)
      · exact Or.inr ⟨f, Or.inl rfl, rfl⟩
      · exact Or.inl h
      · exact Or.inr ⟨f', Or.inr hf', rfl⟩
    · rintro (h | ⟨f', (rfl | hf'), rfl⟩)
      · exact Or.inl (Or.inr h)
      · exact Or.inl (Or.inl rfl)
      · exact Or.inr ⟨f', hf', rfl⟩

/-- Counterexample to C5 as stated. One file `/r/src/a.ts` imports `/r/src/b`,
which resolves to the internal file `/r/src/b.ts`; after `build_graph`
completes, `src/b.ts` occurs in an edge list of the graph but is NOT a key of
the mapping — `build_graph` only ever inserts the currently processed file as
a key (`graph.entry(current_key)`), never the resolved import target. -/
theorem claim_C5_counterexample :
    (("src/b.ts".toList) ∈
      ((build_graph ⟨[("/r/src/a.ts".toList), ("/r/src/b.ts".toList)]⟩ ("/r".toList)
          (fun p => if p = ("/r/src/a.ts".toList) then [("/r/src/b".toList)] else [])
          [("/r/src/a.ts".toList)] []).map Prod.snd).flatten) ∧
    ¬ (("src/b.ts".toList) ∈
      (build_graph ⟨[("/r/src/a.ts".toList), ("/r/src/b.ts".toList)]⟩ ("/r".toList)
          (fun p => if p = ("/r/src/a.ts".toList) then [("/r/src/b".toList)] else [])
          [("/r/src/a.ts".toList)] []).map Prod.fst) := by
  constructor <;> decide

/-- C5 as amended: after `build_graph` completes, the keys of the mapping are
exactly the normalized input files; a resolved internal import target becomes
an edge of the importing file but is inserted as a key only if it is itself
among the input files. -/
theorem claim_C5_amended (fs : FS) (root : Str) (importsOf : Str → List Str)
    (files : List Str) (k : Str) :
    k ∈ (build_graph fs root importsOf files []).map Prod.fst ↔
      ∃ f ∈ files, k = normalize_file_path root f := by
  rw [mem_keys_build_graph]
  simp

/-! ## The cycle detector (`circular.rs::detect_cycles`)

The Rust DFS terminates because `visited` only grows; the embedding makes this
explicit with a fuel parameter consumed once per node visit. `detect_cycles`
supplies more fuel than there are nodes, and `dfsVisitF_isSome` below proves
that this fuel never runs out, so the embedding computes exactly the Rust
function's result. -/

/-- `circular.rs::CircularDependency`: the closed node sequence plus the
rendered description. -/
structure CircularDependency where
  cycle : List Str
  description : Str
deriving DecidableEq, Repr

/-- The per-hop lines of `format_cycle_description` (`circular.rs:237-241`). -/
def hopLines : List Str → Str
  | a :: b :: rest => "  ".toList ++ a ++ " → ".toList ++ b ++ '\n' :: hopLines (b :: rest)
  | _ => []

/-- `format_cycle_description` (`circular.rs:231-247`). -/
def format_cycle_description (cycle : List Str) : Str :=
  if cycle = [] then "Ciclo vacío".toList
  else
    "Dependencia cíclica detectada:\n".toList ++ hopLines cycle ++
      "\n  ⚠️  Esto rompe la jerarquía de capas y crea acoplamiento circular.".toList

/-- `path.iter().position(|x| x == neighbor)`. -/
def positionOf (a : Str) : List Str → Option Nat
  | [] => none
  | x :: rest => if x = a then some 0 else (positionOf a rest).map (· + 1)

/-- `HashSet::insert` on the list model of a set. -/
def insertS (x : Str) (s : List Str) : List Str := if x ∈ s then s else x :: s

/-- Every node the DFS can ever visit: the graph's keys and every edge target. -/
def univNodes (g : Graph) : List Str := g.map Prod.fst ++ (g.map Prod.snd).flatten

/-- The number of potentially visitable nodes not yet visited — the quantity
that shrinks at every `dfs_detect_cycles` call. -/
def unvisitedCount (g : Graph) (visited : List Str) : Nat :=
  ((univNodes g).filter (fun x => decide (x ∉ visited))).length

/-- The `for neighbor in neighbors` loop of `dfs_detect_cycles`
(`circular.rs:100-116`), parameterized by the recursive visit so that the
whole DFS is structurally recursive (on the fuel, then on the neighbor list)
and therefore computes by kernel reduction: recurse into unvisited neighbors;
a visited neighbor on the recursion stack closes a cycle, extracted from the
first occurrence of the neighbor in `path` and recorded with its
description. -/
def dfsFoldFAux (visit : Str → List Str → List Str → List Str →
    List CircularDependency → Option (List Str × List CircularDependency)) :
    List Str → List Str → List Str → List Str → List CircularDependency →
    Option (List Str × List CircularDependency)
  | [], visited, _, _, cycles => some (visited, cycles)
  | neighbor :: rest, visited, rec_stack1, path1, cycles =>
    if neighbor ∉ visited then
      match visit neighbor visited rec_stack1 path1 cycles with
      | none => none
      | some (visited', cycles') =>
          dfsFoldFAux visit rest visited' rec_stack1 path1 cycles'
    else if neighbor ∈ rec_stack1 then
      let cycle_start := (positionOf neighbor path1).getD 0
      let cycle := path1.drop cycle_start ++ [neighbor]
      dfsFoldFAux visit rest visited rec_stack1 path1
        (cycles ++ [⟨cycle, format_cycle_description cycle⟩])
    else
      dfsFoldFAux visit rest visited rec_stack1 path1 cycles

/-- `dfs_detect_cycles` (`circular.rs:88-120`), fuel-indexed: mark the node
visited, put it on the recursion stack and the path, then walk its neighbors.
`none` means the fuel ran out, which never happens with the fuel
`detect_cycles` supplies. The Rust function mutates `visited` and `cycles`
(returned here) and restores `rec_stack` and `path` on exit (so they are
passed downward only). -/
def dfsVisitF (g : Graph) : Nat → Str → List Str → List Str → List Str →
    List CircularDependency → Option (List Str × List CircularDependency)
  | 0, _, _, _, _, _ => none
  | fuel + 1, node, visited, rec_stack, path, cycles =>
    dfsFoldFAux (fun n v s p c => dfsVisitF g fuel n v s p c)
      ((graphGet g node).getD []) (insertS node visited) (insertS node rec_stack)
      (path ++ [node]) cycles

/-- The neighbor loop with its visits running at the given fuel; matches the
shape of `dfsFoldFAux` instantiated at `dfsVisitF g fuel`
(`dfsFoldFAux_eq`). -/
def dfsFoldF (g : Graph) (fuel : Nat) : List Str → List Str → List Str →
    List Str → List CircularDependency → Option (List Str × List CircularDependency)
  | [], visited, _, _, cycles => some (visited, cycles)
  | neighbor :: rest, visited, rec_stack1, path1, cycles =>
    if neighbor ∉ visited then
      match dfsVisitF g fuel neighbor visited rec_stack1 path1 cycles with
      | none => none
      | some (visited', cycles') =>
          dfsFoldF g fuel rest visited' rec_stack1 path1 cycles'
    else if neighbor ∈ rec_stack1 then
      let cycle_start := (positionOf neighbor path1).getD 0
      let cycle := path1.drop cycle_start ++ [neighbor]
      dfsFoldF g fuel rest visited rec_stack1 path1
        (cycles ++ [⟨cycle, format_cycle_description cycle⟩])
    else
      dfsFoldF g fuel rest visited rec_stack1 path1 cycles

theorem dfsFoldFAux_eq (g : Graph) (fuel : Nat) : ∀ ns V S P C,
    dfsFoldFAux (fun n v s p c => dfsVisitF g fuel n v s p c) ns V S P C =
      dfsFoldF g fuel ns V S P C := by
  intro ns
  induction ns with
  | nil =>
    intro V S P C
    rfl
  | cons nb rest ih =>
    intro V S P C
    rw [dfsFoldFAux, dfsFoldF]
    by_cases hnv : nb ∉ V
    · rw [if_pos hnv, if_pos hnv]
      cases dfsVisitF g fuel nb V S P C with
      | none => rfl
      | some r =>
        obtain ⟨V', C'⟩ := r
        exact ih V' S P C'
    · rw [if_neg hnv, if_neg hnv]
      by_cases hns : nb ∈ S
      · rw [if_pos hns, if_pos hns]
        exact ih V S P _
      · rw [if_neg hns, if_neg hns]
        exact ih V S P C

/-- The unfolding of a fueled visit into the neighbor loop at one less fuel. -/
theorem dfsVisitF_succ (g : Graph) (fuel : Nat) (node : Str) (V S P : List Str)
    (C : List CircularDependency) :
    dfsVisitF g (fuel + 1) node V S P C =
      dfsFoldF g fuel ((graphGet g node).getD []) (insertS node V)
        (insertS node S) (P ++ [node]) C := by
  rw [dfsVisitF]
  exact dfsFoldFAux_eq g fuel _ _ _ _ _

/-- The `for node in self.graph.keys()` loop of `detect_cycles`
(`circular.rs:72-82`). The `none` branch is dead code: `detect_cycles`
supplies sufficient fuel (`dfsVisitF_isSome`). -/
def detectLoop (g : Graph) (fuel : Nat) :
    List Str → List Str → List CircularDependency → List CircularDependency
  | [], _, cycles => cycles
  | node :: rest, visited, cycles =>
    if node ∈ visited then detectLoop g fuel rest visited cycles
    else
      match dfsVisitF g fuel node visited [] [] cycles with
      | some (visited', cycles') => detectLoop g fuel rest visited' cycles'
      | none => detectLoop g fuel rest visited cycles

/-- `detect_cycles` (`circular.rs:66-85`): run the DFS from every
not-yet-visited key of the graph. -/
def detect_cycles (g : Graph) : List CircularDependency :=
  detectLoop g ((univNodes g).length + 1) (g.map Prod.fst) [] []

/-! ## Claims C3 and C4: correctness of the cycle detector -/

/-- The edge relation of a dependency graph: `b` is among `a`'s targets. -/
def EdgeG (g : Graph) (a b : Str) : Prop := b ∈ (graphGet g a).getD []

/-- The reversed edge relation; `Acc (FlipE g) v` states that every forward
walk from `v` is finite — in particular no cycle passes through `v`. -/
def FlipE (g : Graph) (b a : Str) : Prop := EdgeG g a b

/-- The graph contains a directed cycle: a nonempty edge walk from some node
back to itself. -/
def hasCycle (g : Graph) : Prop := ∃ n, Relation.TransGen (EdgeG g) n n

/-- A closed walk of `g`: at least one edge, first node equal to the last
node, every consecutive pair an edge. -/
def ClosedWalk (g : Graph) (l : List Str) : Prop :=
  2 ≤ l.length ∧ l.head? = l.getLast? ∧ List.Chain' (EdgeG g) l

theorem insertS_mem (x y : Str) (s : List Str) : y ∈ insertS x s ↔ y = x ∨ y ∈ s := by
  unfold insertS
  by_cases h : x ∈ s
  · rw [if_pos h]
    constructor
    · exact Or.inr
    · rintro (rfl | h2)
      · exact h
      · exact h2
  · rw [if_neg h]
    exact List.mem_cons

theorem mem_insertS_self (x : Str) (s : List Str) : x ∈ insertS x s :=
  (insertS_mem x x s).mpr (Or.inl rfl)

theorem subset_insertS (x : Str) (s : List Str) : s ⊆ insertS x s :=
  fun _ hy => (insertS_mem _ _ _).mpr (Or.inr hy)

theorem positionOf_isSome_of_mem (a : Str) (l : List Str) (h : a ∈ l) :
    ∃ i, positionOf a l = some i := by
  induction l with
  | nil => cases h
  | cons x rest ih =>
    rw [positionOf]
    by_cases hx : x = a
    · exact ⟨0, by rw [if_pos hx]⟩
    · have h2 : a ∈ rest := by
        rcases List.mem_cons.mp h with rfl | h2
        · exact absurd rfl hx
        · exact h2
      rcases ih h2 with ⟨i, hi⟩
      refine ⟨i + 1, ?_⟩
      rw [if_neg hx, hi]
      rfl

theorem positionOf_lt (a : Str) (l : List Str) (i : Nat)
    (h : positionOf a l = some i) : i < l.length := by
  induction l generalizing i with
  | nil => cases h
  | cons x rest ih =>
    rw [positionOf] at h
    by_cases hx : x = a
    · rw [if_pos hx] at h
      cases h
      simp
    · rw [if_neg hx] at h
      cases hp : positionOf a rest with
      | none => rw [hp] at h; cases h
      | some j =>
        rw [hp] at h
        cases h
        simpa using Nat.succ_lt_succ (ih j hp)

theorem head?_drop_positionOf (a : Str) (l : List Str) (i : Nat)
    (h : positionOf a l = some i) : (l.drop i).head? = some a := by
  induction l generalizing i with
  | nil => cases h
  | cons x rest ih =>
    rw [positionOf] at h
    by_cases hx : x = a
    · rw [if_pos hx] at h
      cases h
      simp [hx]
    · rw [if_neg hx] at h
      cases hp : positionOf a rest with
      | none => rw [hp] at h; cases h
      | some j =>
        rw [hp] at h
        cases h
        simpa using ih j hp

theorem getLast?_drop_of_lt (l : List Str) (i : Nat) (h : i < l.length) :
    (l.drop i).getLast? = l.getLast? := by
  induction l generalizing i with
  | nil => simp at h
  | cons x rest ih =>
    cases i with
    | zero => rfl
    | succ j =>
      have hj : j < rest.length := by simpa using h
      rw [List.drop_succ_cons, ih j hj]
      cases rest with
      | nil => simp at hj
      | cons y ys => rw [List.getLast?_cons_cons]

theorem chain'_drop {R : Str → Str → Prop} (l : List Str) (i : Nat)
    (h : List.Chain' R l) : List.Chain' R (l.drop i) := by
  induction i generalizing l with
  | zero => exact h
  | succ j ih =>
    cases l with
    | nil => exact List.chain'_nil
    | cons x rest =>
      rw [List.drop_succ_cons]
      exact ih rest (List.chain'_cons'.mp h).2

theorem targets_subset_univ (g : Graph) (n x : Str)
    (h : x ∈ (graphGet g n).getD []) : x ∈ univNodes g := by
  induction g with
  | nil => cases h
  | cons e rest ih =>
    obtain ⟨k, vs⟩ := e
    rw [graphGet] at h
    unfold univNodes at ih ⊢
    by_cases hk : k = n
    · rw [if_pos hk] at h
      simp only [Option.getD_some] at h
      simp only [List.map_cons, List.flatten_cons, List.cons_append, List.mem_cons,
        List.mem_append]
      exact Or.inr (Or.inr (Or.inl h))
    · rw [if_neg hk] at h
      have := ih h
      simp only [List.map_cons, List.flatten_cons, List.cons_append, List.mem_cons,
        List.mem_append] at this ⊢
      tauto

theorem keys_subset_univ (g : Graph) (k : Str) (h : k ∈ g.map Prod.fst) :
    k ∈ univNodes g := by
  unfold univNodes
  exact List.mem_append.mpr (Or.inl h)

theorem edgeG_source_mem_keys (g : Graph) (a b : Str) (h : EdgeG g a b) :
    a ∈ g.map Prod.fst := by
  unfold EdgeG at h
  cases hg : graphGet g a with
  | none => rw [hg] at h; cases h
  | some vs => exact graphGet_some_mem_keys g a vs hg

theorem filter_length_le_of_imp {α : Type} (l : List α) (p q : α → Bool)
    (h : ∀ x, p x = true → q x = true) :
    (l.filter p).length ≤ (l.filter q).length := by
  induction l with
  | nil => exact Nat.le_refl 0
  | cons x rest ih =>
    by_cases hp : p x = true
    · rw [List.filter_cons_of_pos hp, List.filter_cons_of_pos (h x hp)]
      simpa using ih
    · rw [List.filter_cons_of_neg (by simpa using hp)]
      by_cases hq : q x = true
      · rw [List.filter_cons_of_pos hq]
        exact Nat.le_trans ih (by simp)
      · rw [List.filter_cons_of_neg (by simpa using hq)]
        exact ih

theorem filter_length_lt_of_witness {α : Type} (l : List α) (p q : α → Bool)
    (h : ∀ x, p x = true → q x = true) (a : α) (ha : a ∈ l)
    (hqa : q a = true) (hpa : p a = false) :
    (l.filter p).length < (l.filter q).length := by
  induction l with
  | nil => cases ha
  | cons x rest ih =>
    rcases List.mem_cons.mp ha with rfl | ha2
    · rw [List.filter_cons_of_neg (by simp [hpa]), List.filter_cons_of_pos hqa]
      exact Nat.lt_succ_of_le (filter_length_le_of_imp rest p q h)
    · by_cases hp : p x = true
      · rw [List.filter_cons_of_pos hp, List.filter_cons_of_pos (h x hp)]
        simpa using ih ha2
      · rw [List.filter_cons_of_neg (by simpa using hp)]
        by_cases hq : q x = true
        · rw [List.filter_cons_of_pos hq]
          exact Nat.lt_succ_of_le (Nat.le_of_lt (ih ha2))
        · rw [List.filter_cons_of_neg (by simpa using hq)]
          exact ih ha2

theorem unvisitedCount_le (g : Graph) (V V' : List Str) (h : V ⊆ V') :
    unvisitedCount g V' ≤ unvisitedCount g V := by
  apply filter_length_le_of_imp
  intro x hx
  simp only [decide_eq_true_eq] at hx ⊢
  exact fun hm => hx (h hm)

theorem unvisitedCount_lt_insertS (g : Graph) (V : List Str) (n : Str)
    (hn : n ∈ univNodes g) (hnv : n ∉ V) :
    unvisitedCount g (insertS n V) < unvisitedCount g V := by
  refine filter_length_lt_of_witness _ _ _ ?_ n hn ?_ ?_
  · intro x hx
    simp only [decide_eq_true_eq] at hx ⊢
    exact fun hm => hx (subset_insertS n V hm)
  · simpa using hnv
  · simp only [decide_eq_false_iff_not, not_not]
    exact mem_insertS_self n V

theorem unvisitedCount_le_univ (g : Graph) (V : List Str) :
    unvisitedCount g V ≤ (univNodes g).length :=
  List.length_filter_le _ _

/-- The DFS only grows `visited`, puts the visited node into it, and only
appends to `cycles`. -/
theorem dfs_mono (g : Graph) : ∀ fuel : Nat,
    (∀ node V S P C V' C', dfsVisitF g fuel node V S P C = some (V', C') →
      V ⊆ V' ∧ node ∈ V' ∧ ∃ Δ, C' = C ++ Δ) ∧
    (∀ S P ns V C V' C', dfsFoldF g fuel ns V S P C = some (V', C') →
      V ⊆ V' ∧ ∃ Δ, C' = C ++ Δ) := by
  intro fuel
  induction fuel with
  | zero =>
    constructor
    · intro node V S P C V' C' h
      rw [dfsVisitF] at h
      cases h
    · intro S P ns
      induction ns with
      | nil =>
        intro V C V' C' h
        rw [dfsFoldF] at h
        cases h
        exact ⟨fun _ hm => hm, [], by simp⟩
      | cons nb rest ih =>
        intro V C V' C' h
        rw [dfsFoldF] at h
        by_cases hnv : nb ∉ V
        · rw [if_pos hnv, dfsVisitF] at h
          cases h
        · rw [if_neg hnv] at h
          by_cases hns : nb ∈ S
          · rw [if_pos hns] at h
            rcases ih V _ V' C' h with ⟨hs, Δ, hΔ⟩
            exact ⟨hs, _, by rw [hΔ, List.append_assoc]⟩
          · rw [if_neg hns] at h
            exact ih V C V' C' h
  | succ f ihf =>
    have visitPart : ∀ node V S P C V' C',
        dfsVisitF g (f + 1) node V S P C = some (V', C') →
        V ⊆ V' ∧ node ∈ V' ∧ ∃ Δ, C' = C ++ Δ := by
      intro node V S P C V' C' h
      rw [dfsVisitF_succ] at h
      rcases ihf.2 _ _ _ _ _ _ _ h with ⟨hs, Δ, hΔ⟩
      exact ⟨fun y hy => hs (subset_insertS node V hy),
        hs (mem_insertS_self node V), Δ, hΔ⟩
    refine ⟨visitPart, ?_⟩
    intro S P ns
    induction ns with
    | nil =>
      intro V C V' C' h
      rw [dfsFoldF] at h
      cases h
      exact ⟨fun _ hm => hm, [], by simp⟩
    | cons nb rest ih =>
      intro V C V' C' h
      rw [dfsFoldF] at h
      by_cases hnv : nb ∉ V
      · rw [if_pos hnv] at h
        cases hveq : dfsVisitF g (f + 1) nb V S P C with
        | none => rw [hveq] at h; cases h
        | some r =>
          obtain ⟨V₁, C₁⟩ := r
          rw [hveq] at h
          rcases visitPart _ _ _ _ _ _ _ hveq with ⟨hs1, hn1, Δ₁, hΔ₁⟩
          rcases ih V₁ C₁ V' C' h with ⟨hs2, Δ₂, hΔ₂⟩
          exact ⟨fun y hy => hs2 (hs1 hy), Δ₁ ++ Δ₂,
            by rw [hΔ₂, hΔ₁, List.append_assoc]⟩
      · rw [if_neg hnv] at h
        by_cases hns : nb ∈ S
        · rw [if_pos hns] at h
          rcases ih V _ V' C' h with ⟨hs, Δ, hΔ⟩
          exact ⟨hs, _, by rw [hΔ, List.append_assoc]⟩
        · rw [if_neg hns] at h
          exact ih V C V' C' h

/-- The fuel `detect_cycles` supplies never runs out: with more fuel than
unvisited reachable nodes, the DFS always returns a result. -/
theorem dfs_isSome (g : Graph) : ∀ fuel : Nat,
    (∀ node V S P C, node ∈ univNodes g → node ∉ V →
      unvisitedCount g V < fuel → (dfsVisitF g fuel node V S P C).isSome = true) ∧
    (∀ S P ns, (∀ x ∈ ns, x ∈ univNodes g) → ∀ V C,
      unvisitedCount g V < fuel → (dfsFoldF g fuel ns V S P C).isSome = true) := by
  intro fuel
  induction fuel with
  | zero =>
    constructor
    · intro node V S P C _ _ hlt
      exact absurd hlt (Nat.not_lt_zero _)
    · intro S P ns _ V C hlt
      exact absurd hlt (Nat.not_lt_zero _)
  | succ f ihf =>
    have visitPart : ∀ node V S P C, node ∈ univNodes g → node ∉ V →
        unvisitedCount g V < f + 1 → (dfsVisitF g (f + 1) node V S P C).isSome = true := by
      intro node V S P C hu hnv hlt
      rw [dfsVisitF_succ]
      apply ihf.2
      · intro x hx
        exact targets_subset_univ g node x hx
      · have h1 := unvisitedCount_lt_insertS g V node hu hnv
        omega
    refine ⟨visitPart, ?_⟩
    intro S P ns
    induction ns with
    | nil =>
      intro _ V C _
      rw [dfsFoldF]
      rfl
    | cons nb rest ih =>
      intro hns V C hlt
      rw [dfsFoldF]
      by_cases hnv : nb ∉ V
      · rw [if_pos hnv]
        have hv := visitPart nb V S P C (hns nb (by simp)) hnv hlt
        cases hveq : dfsVisitF g (f + 1) nb V S P C with
        | none => rw [hveq] at hv; cases hv
        | some r =>
          obtain ⟨V₁, C₁⟩ := r
          apply ih (fun x hx => hns x (by simp [hx])) V₁ C₁
          rcases (dfs_mono g (f + 1)).1 _ _ _ _ _ _ _ hveq with ⟨hs1, hn1, -⟩
          have hsub : insertS nb V ⊆ V₁ := by
            intro y hy
            rcases (insertS_mem nb y V).mp hy with rfl | hy2
            · exact hn1
            · exact hs1 hy2
          have h2 := unvisitedCount_le g _ _ hsub
          have h3 := unvisitedCount_lt_insertS g V nb (hns nb (by simp)) hnv
          omega
      · rw [if_neg hnv]
        by_cases hnsb : nb ∈ S
        · rw [if_pos hnsb]
          exact ih (fun x hx => hns x (by simp [hx])) V _ hlt
        · rw [if_neg hnsb]
          exact ih (fun x hx => hns x (by simp [hx])) V C hlt

/-- The cycle recorded at a back edge is a closed walk: the recursion stack
mirrors the path, the path is an edge chain ending in the current node, and
the back edge closes the loop. -/
theorem recorded_cycle_closed (g : Graph) (S P : List Str) (nb : Str)
    (hSP : ∀ x, x ∈ S ↔ x ∈ P) (hchain : List.Chain' (EdgeG g) P) (hPne : P ≠ [])
    (hedge : ∀ y, P.getLast? = some y → EdgeG g y nb) (hnbS : nb ∈ S) :
    ClosedWalk g (P.drop ((positionOf nb P).getD 0) ++ [nb]) := by
  have hnbP : nb ∈ P := (hSP nb).mp hnbS
  obtain ⟨i, hi⟩ := positionOf_isSome_of_mem nb P hnbP
  rw [hi]
  simp only [Option.getD_some]
  have hilt := positionOf_lt nb P i hi
  have hhead : (P.drop i).head? = some nb := head?_drop_positionOf nb P i hi
  have hAne : P.drop i ≠ [] := by
    intro h0
    rw [h0] at hhead
    cases hhead
  have hlast : (P.drop i).getLast? = P.getLast? := getLast?_drop_of_lt P i hilt
  obtain ⟨y₀, hy₀⟩ : ∃ y, P.getLast? = some y := by
    cases hP : P.getLast? with
    | none => exact absurd (List.getLast?_eq_none_iff.mp hP) hPne
    | some y => exact ⟨y, rfl⟩
  refine ⟨?_, ?_, ?_⟩
  · have h1 : 0 < (P.drop i).length := List.length_pos.mpr hAne
    rw [List.length_append, List.length_singleton]
    omega
  · rw [List.head?_append_of_ne_nil _ hAne, List.getLast?_concat, hhead]
  · refine List.Chain'.append (chain'_drop P i hchain) (List.chain'_singleton nb) ?_
    intro x hx y hy
    rw [hlast, hy₀] at hx
    simp only [Option.mem_def, Option.some.injEq, List.head?_cons] at hx hy
    subst hx
    subst hy
    exact hedge y₀ hy₀

/-- Every cycle the DFS appends is a closed walk of the graph (given the
stack/path invariants of a reachable DFS state). -/
theorem dfs_sound (g : Graph) : ∀ fuel : Nat,
    (∀ node V S P C V' C', dfsVisitF g fuel node V S P C = some (V', C') →
      (∀ x, x ∈ S ↔ x ∈ P) → List.Chain' (EdgeG g) P →
      (∀ x, P.getLast? = some x → EdgeG g x node) →
      ∀ c ∈ C', c ∈ C ∨ ClosedWalk g c.cycle) ∧
    (∀ S P, (∀ x, x ∈ S ↔ x ∈ P) → List.Chain' (EdgeG g) P → P ≠ [] →
      ∀ ns, (∀ y x, P.getLast? = some y → x ∈ ns → EdgeG g y x) →
      ∀ V C V' C', dfsFoldF g fuel ns V S P C = some (V', C') →
      ∀ c ∈ C', c ∈ C ∨ ClosedWalk g c.cycle) := by
  intro fuel
  induction fuel with
  | zero =>
    constructor
    · intro node V S P C V' C' h
      rw [dfsVisitF] at h
      cases h
    · intro S P hSP hchain hPne ns
      induction ns with
      | nil =>
        intro hedge V C V' C' h
        rw [dfsFoldF] at h
        cases h
        exact fun c hc => Or.inl hc
      | cons nb rest ih =>
        intro hedge V C V' C' h
        rw [dfsFoldF] at h
        by_cases hnv : nb ∉ V
        · rw [if_pos hnv, dfsVisitF] at h
          cases h
        · rw [if_neg hnv] at h
          by_cases hns : nb ∈ S
          · rw [if_pos hns] at h
            have hclosed := recorded_cycle_closed g S P nb hSP hchain hPne
              (fun y hy => hedge y nb hy (by simp)) hns
            intro c hc
            rcases ih (fun y x hy hx => hedge y x hy (by simp [hx])) V _ V' C' h c hc with
              hin | hcw
            · rcases List.mem_append.mp hin with hin2 | hin2
              · exact Or.inl hin2
              · right
                rw [List.mem_singleton] at hin2
                subst hin2
                exact hclosed
            · exact Or.inr hcw
          · rw [if_neg hns] at h
            exact ih (fun y x hy hx => hedge y x hy (by simp [hx])) V C V' C' h
  | succ f ihf =>
    have visitPart : ∀ node V S P C V' C',
        dfsVisitF g (f + 1) node V S P C = some (V', C') →
        (∀ x, x ∈ S ↔ x ∈ P) → List.Chain' (EdgeG g) P →
        (∀ x, P.getLast? = some x → EdgeG g x node) →
        ∀ c ∈ C', c ∈ C ∨ ClosedWalk g c.cycle := by
      intro node V S P C V' C' h hSP hchain hlink
      rw [dfsVisitF_succ] at h
      refine ihf.2 (insertS node S) (P ++ [node]) ?_ ?_ (by simp) _ ?_ _ _ _ _ h
      · intro x
        rw [insertS_mem, List.mem_append, List.mem_singleton, hSP x]
        tauto
      · refine List.Chain'.append hchain (List.chain'_singleton node) ?_
        intro x hx y hy
        simp only [Option.mem_def, List.head?_cons, Option.some.injEq] at hx hy
        subst hy
        exact hlink x hx
      · intro y x hy hx
        rw [List.getLast?_concat] at hy
        cases hy
        exact hx
    refine ⟨visitPart, ?_⟩
    intro S P hSP hchain hPne ns
    induction ns with
    | nil =>
      intro hedge V C V' C' h
      rw [dfsFoldF] at h
      cases h
      exact fun c hc => Or.inl hc
    | cons nb rest ih =>
      intro hedge V C V' C' h
      rw [dfsFoldF] at h
      by_cases hnv : nb ∉ V
      · rw [if_pos hnv] at h
        cases hveq : dfsVisitF g (f + 1) nb V S P C with
        | none => rw [hveq] at h; cases h
        | some r =>
          obtain ⟨V₁, C₁⟩ := r
          rw [hveq] at h
          intro c hc
          rcases ih (fun y x hy hx => hedge y x hy (by simp [hx])) V₁ C₁ V' C' h c hc with
            hin | hcw
          · rcases visitPart _ _ _ _ _ _ _ hveq hSP hchain
              (fun x hx => hedge x nb hx (by simp)) c hin with hin2 | hcw2
            · exact Or.inl hin2
            · exact Or.inr hcw2
          · exact Or.inr hcw
      · rw [if_neg hnv] at h
        by_cases hns : nb ∈ S
        · rw [if_pos hns] at h
          have hclosed := recorded_cycle_closed g S P nb hSP hchain hPne
            (fun y hy => hedge y nb hy (by simp)) hns
          intro c hc
          rcases ih (fun y x hy hx => hedge y x hy (by simp [hx])) V _ V' C' h c hc with
            hin | hcw
          · rcases List.mem_append.mp hin with hin2 | hin2
            · exact Or.inl hin2
            · right
              rw [List.mem_singleton] at hin2
              subst hin2
              exact hclosed
          · exact Or.inr hcw
        · rw [if_neg hns] at h
          exact ih (fun y x hy hx => hedge y x hy (by simp [hx])) V C V' C' h

/-- Completeness invariant of the DFS: in a run that records no cycle, every
node that is visited but not on the current path is accessible along forward
edges (no cycle passes through it), and every scanned neighbor ends up visited
and off the path. -/
theorem dfs_complete (g : Graph) : ∀ fuel : Nat,
    (∀ node V S P C V' C', dfsVisitF g fuel node V S P C = some (V', C') →
      (∀ x, x ∈ S ↔ x ∈ P) → (∀ x ∈ P, x ∈ V) → node ∉ V →
      (∀ v ∈ V, v ∉ P → Acc (FlipE g) v) →
      C' = C → ∀ v ∈ V', v ∉ P → Acc (FlipE g) v) ∧
    (∀ S P1, (∀ x, x ∈ S ↔ x ∈ P1) →
      ∀ ns V C V' C', dfsFoldF g fuel ns V S P1 C = some (V', C') →
      (∀ x ∈ P1, x ∈ V) → (∀ v ∈ V, v ∉ P1 → Acc (FlipE g) v) → C' = C →
      (∀ v ∈ V', v ∉ P1 → Acc (FlipE g) v) ∧ (∀ x ∈ ns, x ∈ V' ∧ x ∉ P1)) := by
  intro fuel
  induction fuel with
  | zero =>
    constructor
    · intro node V S P C V' C' h
      rw [dfsVisitF] at h
      cases h
    · intro S P1 hSP ns
      induction ns with
      | nil =>
        intro V C V' C' h hPV hACC hC
        rw [dfsFoldF] at h
        cases h
        exact ⟨hACC, by simp⟩
      | cons nb rest ih =>
        intro V C V' C' h hPV hACC hC
        rw [dfsFoldF] at h
        by_cases hnv : nb ∉ V
        · rw [if_pos hnv, dfsVisitF] at h
          cases h
        · rw [if_neg hnv] at h
          by_cases hns : nb ∈ S
          · rw [if_pos hns] at h
            exfalso
            rcases (dfs_mono g 0).2 _ _ _ _ _ _ _ h with ⟨-, Δ, hΔ⟩
            have hlen : C.length = C.length + 1 + Δ.length := by
              conv_lhs => rw [← hC]
              rw [hΔ]
              simp only [List.length_append, List.length_singleton]
            omega
          · rw [if_neg hns] at h
            rcases ih V C V' C' h hPV hACC hC with ⟨hEnd, hRest⟩
            refine ⟨hEnd, ?_⟩
            intro x hx
            rcases List.mem_cons.mp hx with rfl | hx2
            · refine ⟨((dfs_mono g 0).2 _ _ _ _ _ _ _ h).1 (not_not.mp hnv), ?_⟩
              intro hxP
              exact hns ((hSP x).mpr hxP)
            · exact hRest x hx2
  | succ f ihf =>
    have visitPart : ∀ node V S P C V' C',
        dfsVisitF g (f + 1) node V S P C = some (V', C') →
        (∀ x, x ∈ S ↔ x ∈ P) → (∀ x ∈ P, x ∈ V) → node ∉ V →
        (∀ v ∈ V, v ∉ P → Acc (FlipE g) v) →
        C' = C → ∀ v ∈ V', v ∉ P → Acc (FlipE g) v := by
      intro node V S P C V' C' h hSP hPV hnv hACC hC
      rw [dfsVisitF_succ] at h
      have hres := ihf.2 (insertS node S) (P ++ [node])
        (by
          intro x
          rw [insertS_mem, List.mem_append, List.mem_singleton, hSP x]
          tauto)
        _ _ _ _ _ h
        (by
          intro x hx
          rcases List.mem_append.mp hx with hx2 | hx2
          · exact subset_insertS node V (hPV x hx2)
          · rw [List.mem_singleton] at hx2
            subst hx2
            exact mem_insertS_self x V)
        (by
          intro v hv hvP1
          rcases (insertS_mem node v V).mp hv with rfl | hv2
          · exact absurd (List.mem_append.mpr (Or.inr (by simp))) hvP1
          · exact hACC v hv2 fun hvP => hvP1 (List.mem_append.mpr (Or.inl hvP)))
        hC
      obtain ⟨hEnd, hNbrs⟩ := hres
      intro v hv hvP
      by_cases hvn : v = node
      · subst hvn
        refine Acc.intro v fun y hy => ?_
        have hy' : y ∈ (graphGet g v).getD [] := hy
        exact hEnd y (hNbrs y hy').1 (hNbrs y hy').2
      · refine hEnd v hv ?_
        intro hmem
        rcases List.mem_append.mp hmem with h2 | h2
        · exact hvP h2
        · rw [List.mem_singleton] at h2
          exact hvn h2
    refine ⟨visitPart, ?_⟩
    intro S P1 hSP ns
    induction ns with
    | nil =>
      intro V C V' C' h hPV hACC hC
      rw [dfsFoldF] at h
      cases h
      exact ⟨hACC, by simp⟩
    | cons nb rest ih =>
      intro V C V' C' h hPV hACC hC
      rw [dfsFoldF] at h
      by_cases hnv : nb ∉ V
      · rw [if_pos hnv] at h
        cases hveq : dfsVisitF g (f + 1) nb V S P1 C with
        | none => rw [hveq] at h; cases h
        | some r =>
          obtain ⟨V₁, C₁⟩ := r
          rw [hveq] at h
          rcases (dfs_mono g (f + 1)).1 _ _ _ _ _ _ _ hveq with ⟨hsub1, hnb1, Δ₁, hΔ₁⟩
          rcases (dfs_mono g (f + 1)).2 _ _ _ _ _ _ _ h with ⟨hsub2, Δ₂, hΔ₂⟩
          have hΔnil : Δ₁ = [] := by
            have hlen : C.length = C.length + Δ₁.length + Δ₂.length := by
              conv_lhs => rw [← hC]
              rw [hΔ₂, hΔ₁]
              simp only [List.length_append]
            have : Δ₁.length = 0 := by omega
            exact List.eq_nil_of_length_eq_zero this
          have hC₁ : C₁ = C := by rw [hΔ₁, hΔnil, List.append_nil]
          have hACC₁ : ∀ v ∈ V₁, v ∉ P1 → Acc (FlipE g) v :=
            visitPart _ _ _ _ _ _ _ hveq hSP hPV hnv hACC hC₁
          rcases ih V₁ C₁ V' C' h (fun x hx => hsub1 (hPV x hx)) hACC₁
            (by rw [hC, hC₁]) with ⟨hEnd, hRest⟩
          refine ⟨hEnd, ?_⟩
          intro x hx
          rcases List.mem_cons.mp hx with rfl | hx2
          · exact ⟨hsub2 hnb1, fun hxP => hnv (hPV x hxP)⟩
          · exact hRest x hx2
      · rw [if_neg hnv] at h
        by_cases hns : nb ∈ S
        · rw [if_pos hns] at h
          exfalso
          rcases (dfs_mono g (f + 1)).2 _ _ _ _ _ _ _ h with ⟨-, Δ, hΔ⟩
          have hlen : C.length = C.length + 1 + Δ.length := by
            conv_lhs => rw [← hC]
            rw [hΔ]
            simp only [List.length_append, List.length_singleton]
          omega
        · rw [if_neg hns] at h
          rcases ih V C V' C' h hPV hACC hC with ⟨hEnd, hRest⟩
          refine ⟨hEnd, ?_⟩
          intro x hx
          rcases List.mem_cons.mp hx with rfl | hx2
          · refine ⟨((dfs_mono g (f + 1)).2 _ _ _ _ _ _ _ h).1 (not_not.mp hnv), ?_⟩
            intro hxP
            exact hns ((hSP x).mpr hxP)
          · exact hRest x hx2

/-- The key loop only appends to the cycle list. -/
theorem detectLoop_append (g : Graph) (fuel : Nat) :
    ∀ keys V C, ∃ Δ, detectLoop g fuel keys V C = C ++ Δ := by
  intro keys
  induction keys with
  | nil =>
    intro V C
    exact ⟨[], by rw [detectLoop]; simp⟩
  | cons node rest ih =>
    intro V C
    rw [detectLoop]
    by_cases hv : node ∈ V
    · rw [if_pos hv]
      exact ih V C
    · rw [if_neg hv]
      cases hveq : dfsVisitF g fuel node V [] [] C with
      | none => exact ih V C
      | some r =>
        obtain ⟨V', C'⟩ := r
        rcases (dfs_mono g fuel).1 _ _ _ _ _ _ _ hveq with ⟨-, -, Δ₁, hΔ₁⟩
        rcases ih V' C' with ⟨Δ₂, hΔ₂⟩
        refine ⟨Δ₁ ++ Δ₂, ?_⟩
        dsimp only
        rw [hΔ₂, hΔ₁, List.append_assoc]

/-- Every cycle in the key loop's output was already present or is a closed
walk of the graph. -/
theorem detectLoop_sound (g : Graph) (fuel : Nat) :
    ∀ keys V C c, c ∈ detectLoop g fuel keys V C → c ∈ C ∨ ClosedWalk g c.cycle := by
  intro keys
  induction keys with
  | nil =>
    intro V C c hc
    rw [detectLoop] at hc
    exact Or.inl hc
  | cons node rest ih =>
    intro V C c hc
    rw [detectLoop] at hc
    by_cases hv : node ∈ V
    · rw [if_pos hv] at hc
      exact ih V C c hc
    · rw [if_neg hv] at hc
      cases hveq : dfsVisitF g fuel node V [] [] C with
      | none =>
        rw [hveq] at hc
        exact ih V C c hc
      | some r =>
        obtain ⟨V', C'⟩ := r
        rw [hveq] at hc
        rcases ih V' C' c hc with hin | hcw
        · exact (dfs_sound g fuel).1 _ _ _ _ _ _ _ hveq (fun x => Iff.rfl)
            List.chain'_nil (fun x hx => Option.noConfusion hx) c hin
        · exact Or.inr hcw

/-- If the whole run records no cycle, every node of `V` and every processed
key is accessible along forward edges. -/
theorem detectLoop_complete (g : Graph) (fuel : Nat)
    (hfuel : (univNodes g).length < fuel) :
    ∀ keys, (∀ k ∈ keys, k ∈ univNodes g) →
    ∀ V C, (∀ v ∈ V, Acc (FlipE g) v) →
    detectLoop g fuel keys V C = C →
    ∀ v, v ∈ V ∨ v ∈ keys → Acc (FlipE g) v := by
  intro keys
  induction keys with
  | nil =>
    intro _ V C hACC _ v hv
    rcases hv with hv | hv
    · exact hACC v hv
    · exact absurd hv (List.not_mem_nil v)
  | cons node rest ih =>
    intro hkeys V C hACC hres v hv
    rw [detectLoop] at hres
    by_cases hnv : node ∈ V
    · rw [if_pos hnv] at hres
      have hrec := ih (fun k hk => hkeys k (by simp [hk])) V C hACC hres
      rcases hv with hv | hv
      · exact hrec v (Or.inl hv)
      · rcases List.mem_cons.mp hv with rfl | hv2
        · exact hrec v (Or.inl hnv)
        · exact hrec v (Or.inr hv2)
    · rw [if_neg hnv] at hres
      have hsome := (dfs_isSome g fuel).1 node V [] [] C (hkeys node (by simp)) hnv
        (lt_of_le_of_lt (unvisitedCount_le_univ g V) hfuel)
      cases hveq : dfsVisitF g fuel node V [] [] C with
      | none =>
        rw [hveq] at hsome
        cases hsome
      | some r =>
        obtain ⟨V₁, C₁⟩ := r
        rw [hveq] at hres
        have hres2 : detectLoop g fuel rest V₁ C₁ = C := hres
        rcases (dfs_mono g fuel).1 _ _ _ _ _ _ _ hveq with ⟨hsub, hnode, Δ₁, hΔ₁⟩
        rcases detectLoop_append g fuel rest V₁ C₁ with ⟨Δ₂, hΔ₂⟩
        have hC₁ : C₁ = C := by
          have hlen : C.length = C.length + Δ₁.length + Δ₂.length := by
            conv_lhs => rw [← hres2]
            rw [hΔ₂, hΔ₁]
            simp only [List.length_append]
          have h0 : Δ₁.length = 0 := by omega
          rw [hΔ₁, List.eq_nil_of_length_eq_zero h0, List.append_nil]
        have hACC₁ : ∀ w ∈ V₁, Acc (FlipE g) w := by
          intro w hw
          exact (dfs_complete g fuel).1 _ _ _ _ _ _ _ hveq (fun x => Iff.rfl)
            (fun x hx => absurd hx (List.not_mem_nil x)) hnv
            (fun u hu _ => hACC u hu) hC₁ w hw (List.not_mem_nil w)
        rw [hC₁] at hres2
        have hrec := ih (fun k hk => hkeys k (by simp [hk])) V₁ C hACC₁ hres2
        rcases hv with hv | hv
        · exact hrec v (Or.inl (hsub hv))
        · rcases List.mem_cons.mp hv with rfl | hv2
          · exact hrec v (Or.inl hnode)
          · exact hrec v (Or.inr hv2)

/-- A node that is accessible along forward edges lies on no cycle. -/
theorem acc_no_cycle (g : Graph) (x : Str) (hx : Acc (FlipE g) x) :
    ¬ Relation.TransGen (EdgeG g) x x := by
  induction hx with
  | intro x hsucc ih =>
    intro hcyc
    obtain ⟨z, hxz, hzx⟩ := Relation.TransGen.head'_iff.mp hcyc
    exact ih z hxz (Relation.TransGen.trans_right hzx (Relation.TransGen.single hxz))

theorem chain'_transGen {R : Str → Str → Prop} :
    ∀ (l : List Str) (x y : Str), l.head? = some x → l.getLast? = some y →
      2 ≤ l.length → List.Chain' R l → Relation.TransGen R x y := by
  intro l
  induction l with
  | nil =>
    intro x y hx
    cases hx
  | cons a t ih =>
    intro x y hx hy hlen hch
    rw [List.head?_cons] at hx
    cases hx
    cases t with
    | nil => simp at hlen
    | cons b t2 =>
      have hR : R a b := (List.chain'_cons.mp hch).1
      have hch2 : List.Chain' R (b :: t2) := (List.chain'_cons.mp hch).2
      cases t2 with
      | nil =>
        rw [List.getLast?_cons_cons] at hy
        have hyb : y = b := by simpa using hy.symm
        subst hyb
        exact Relation.TransGen.single hR
      | cons d t3 =>
        rw [List.getLast?_cons_cons] at hy
        exact Relation.TransGen.head hR (ih b y rfl hy (by simp) hch2)

/-- A closed walk with at least one edge yields a directed cycle. -/
theorem closedWalk_hasCycle (g : Graph) (l : List Str) (h : ClosedWalk g l) :
    hasCycle g := by
  obtain ⟨hlen, hhl, hch⟩ := h
  cases hl : l.head? with
  | none =>
    rw [List.head?_eq_none_iff] at hl
    subst hl
    simp at hlen
  | some x =>
    refine ⟨x, chain'_transGen l x x hl ?_ hlen hch⟩
    rw [← hhl]
    exact hl

/-- The central correctness result: `detect_cycles` reports nothing exactly
when the graph has no directed cycle. -/
theorem detect_cycles_empty_iff (g : Graph) :
    detect_cycles g = [] ↔ ¬ hasCycle g := by
  constructor
  · intro h hcy
    obtain ⟨n, hn⟩ := hcy
    obtain ⟨z, hz, -⟩ := Relation.TransGen.head'_iff.mp hn
    have hkey : n ∈ g.map Prod.fst := edgeG_source_mem_keys g n z hz
    rw [detect_cycles] at h
    have hacc : Acc (FlipE g) n :=
      detectLoop_complete g ((univNodes g).length + 1) (by omega)
        (g.map Prod.fst) (fun k hk => keys_subset_univ g k hk) [] []
        (fun v hv => absurd hv (List.not_mem_nil v)) h n (Or.inr hkey)
    exact acc_no_cycle g n hacc hn
  · intro h
    by_contra hne
    obtain ⟨c, hc⟩ := List.exists_mem_of_ne_nil _ hne
    rw [detect_cycles] at hc
    rcases detectLoop_sound g _ _ _ _ c hc with hin | hcw
    · exact absurd hin (List.not_mem_nil c)
    · exact h (closedWalk_hasCycle g c.cycle hcw)

/-- Three mutually importing files A→B, B→C, C→A. -/
def gTriangle : Graph :=
  [(("a".toList), [("b".toList)]), (("b".toList), [("c".toList)]),
   (("c".toList), [("a".toList)])]

/-- The triangle with the closing C→A edge removed. -/
def gChain : Graph :=
  [(("a".toList), [("b".toList)]), (("b".toList), [("c".toList)]), (("c".toList), [])]

/-- A single node with an edge to itself (a self-import). -/
def gSelf : Graph := [(("a".toList), [("a".toList)])]

/-- The directed edges a cycle's node sequence traverses. -/
def edgePairs (l : List Str) : List (Str × Str) := l.zip l.tail

/-- C3. `detect_cycles` returns an empty list if and only if the graph has no
directed cycle; for the triangle A→B, B→C, C→A it reports a `Cycle` whose edge
set is exactly those three edges, with C→A removed it reports zero cycles, and
a node with an edge to itself is reported as a one-hop cycle. -/
theorem claim_C3 :
    (∀ g : Graph, detect_cycles g = [] ↔ ¬ hasCycle g) ∧
    (∃ c ∈ detect_cycles gTriangle,
      (∀ e ∈ edgePairs c.cycle,
        e ∈ [(("a".toList), ("b".toList)), (("b".toList), ("c".toList)),
          (("c".toList), ("a".toList))]) ∧
      (∀ e ∈ [(("a".toList), ("b".toList)), (("b".toList), ("c".toList)),
          (("c".toList), ("a".toList))], e ∈ edgePairs c.cycle)) ∧
    detect_cycles gChain = [] ∧
    (∃ c ∈ detect_cycles gSelf, c.cycle = [("a".toList), ("a".toList)]) :=
  ⟨detect_cycles_empty_iff, by decide, by decide, by decide⟩

/-- C4. Every `Cycle` reported by `detect_cycles` is a closed walk of the input
graph: its node sequence is non-empty (indeed holds at least one edge), its
first element equals its last element, and every consecutive pair of elements
is an edge of the graph. -/
theorem claim_C4 (g : Graph) (c : CircularDependency) (hc : c ∈ detect_cycles g) :
    c.cycle ≠ [] ∧ 2 ≤ c.cycle.length ∧ c.cycle.head? = c.cycle.getLast? ∧
      List.Chain' (EdgeG g) c.cycle := by
  rw [detect_cycles] at hc
  rcases detectLoop_sound g _ _ _ _ c hc with hin | hcw
  · exact absurd hin (List.not_mem_nil c)
  · obtain ⟨hlen, hhl, hch⟩ := hcw
    refine ⟨?_, hlen, hhl, hch⟩
    intro h0
    rw [h0] at hlen
    simp at hlen

/-- The cycle value the detector reports for the triangle graph. -/
def cTriangle : CircularDependency :=
  ⟨[("a".toList), ("b".toList), ("c".toList), ("a".toList)],
   format_cycle_description [("a".toList), ("b".toList), ("c".toList), ("a".toList)]⟩

/-- Witness for C4 at the triangle graph's reported cycle. -/
theorem claim_C4_witness :
    cTriangle.cycle ≠ [] ∧ 2 ≤ cTriangle.cycle.length ∧
      cTriangle.cycle.head? = cTriangle.cycle.getLast? ∧
      List.Chain' (EdgeG gTriangle) cTriangle.cycle :=
  claim_C4 gTriangle cTriangle (by decide)

/-! ## Claim C1: the orchestrator (`main.rs::main`) -/

/-- A project file as the orchestrator sees it: its path and its parsed
module items (the swc parse that `analyze_file` performs, and that
`extract_imports` would repeat). -/
structure SourceFile where
  path : Str
  items : List ModuleItem

/-- `extract_imports` (`circular.rs:123-165`) on a parsed module: the source
strings of its import declarations, in order. -/
def extract_imports : List ModuleItem → List Str
  | [] => []
  | .importDecl src :: rest => src :: extract_imports rest
  | _ :: rest => extract_imports rest

/-- The parallel loop of `main` (`main.rs:49-63`): one `analyze_file` run per
file, with a shared counter incremented once per violating file. The per-file
analyses are independent and counter increments commute, so the final counter
value equals this sequential count. -/
def countViolations (ctx : LinterContext) : List SourceFile → Nat
  | [] => 0
  | f :: rest =>
    match analyze_file ctx f.path f.items with
    | .error _ => countViolations ctx rest + 1
    | .ok _ => countViolations ctx rest

/-- The verdict of `main` (`main.rs:67-75`): exit code 1 when the violation
counter is positive, 0 otherwise. `main.rs` does not declare the `circular`
module and nothing after the parallel loop builds a dependency graph or runs
the cycle detector, so the exit code depends on the violation count alone. -/
def mainExitCode (ctx : LinterContext) (files : List SourceFile) : Nat :=
  if countViolations ctx files > 0 then 1 else 0

/-- First file of the C1 counterexample project: imports the second by
absolute path. -/
def fileA : SourceFile := ⟨"/r/src/a.ts".toList, [.importDecl ("/r/src/b".toList)]⟩

/-- Second file of the C1 counterexample project: imports the first back. -/
def fileB : SourceFile := ⟨"/r/src/b.ts".toList, [.importDecl ("/r/src/a".toList)]⟩

/-- Context of the C1 counterexample: no configured rules. -/
def ctxC1 : LinterContext := ⟨40, .NestJS, .MVC, []⟩

/-- File system of the C1 counterexample. -/
def fsC1 : FS := ⟨[("/r/src/a.ts".toList), ("/r/src/b.ts".toList)]⟩

/-- Import extraction for the C1 counterexample project. -/
def importsC1 : Str → List Str := fun p =>
  if p = fileA.path then extract_imports fileA.items
  else if p = fileB.path then extract_imports fileB.items
  else []

/-- The dependency graph of the C1 counterexample project. -/
def graphC1 : Graph :=
  build_graph fsC1 ("/r".toList) importsC1 [fileA.path, fileB.path] []

/-- Counterexample to C1 as stated. The two-file project `a.ts ↔ b.ts` has no
rule violations but its dependency graph contains a cycle that the Cycle
Detector reports; the claim therefore requires a non-zero exit code, yet
`main` — which never invokes the Cycle Detector — exits 0. -/
theorem claim_C1_counterexample :
    countViolations ctxC1 [fileA, fileB] = 0 ∧
    detect_cycles graphC1 ≠ [] ∧
    mainExitCode ctxC1 [fileA, fileB] = 0 := by
  refine ⟨rfl, ?_, rfl⟩
  decide

theorem countViolations_pos_iff (ctx : LinterContext) :
    ∀ files : List SourceFile, 0 < countViolations ctx files ↔
      ∃ f ∈ files, ∃ v, analyze_file ctx f.path f.items = Except.error v := by
  intro files
  induction files with
  | nil => simp [countViolations]
  | cons f rest ih =>
    rw [countViolations]
    cases ha : analyze_file ctx f.path f.items with
    | error v =>
      constructor
      · intro _
        exact ⟨f, by simp, v, ha⟩
      · intro _
        show 0 < countViolations ctx rest + 1
        omega
    | ok u =>
      show (0 < countViolations ctx rest) ↔ _
      rw [ih]
      constructor
      · rintro ⟨f2, hf2, hv⟩
        exact ⟨f2, by simp [hf2], hv⟩
      · rintro ⟨f2, hf2, v, hv⟩
        rcases List.mem_cons.mp hf2 with rfl | hrest
        · rw [ha] at hv
          cases hv
        · exact ⟨f2, hrest, v, hv⟩

/-- C1 as amended: the orchestrator's exit code is 1 exactly when some file
has a violation, and 0 exactly when every file analyzes cleanly; the Cycle
Detector is never invoked, so detected cycles play no part in the verdict. -/
theorem claim_C1_amended (ctx : LinterContext) (files : List SourceFile) :
    (mainExitCode ctx files = 1 ↔
      ∃ f ∈ files, ∃ v, analyze_file ctx f.path f.items = Except.error v) ∧
    (mainExitCode ctx files = 0 ↔
      ∀ f ∈ files, analyze_file ctx f.path f.items = Except.ok ()) := by
  have hiff := countViolations_pos_iff ctx files
  have hok : (¬ ∃ f ∈ files, ∃ v, analyze_file ctx f.path f.items = Except.error v) ↔
      (∀ f ∈ files, analyze_file ctx f.path f.items = Except.ok ()) := by
    constructor
    · intro h f hf
      cases ha : analyze_file ctx f.path f.items with
      | error v => exact absurd ⟨f, hf, v, ha⟩ h
      | ok u =>
        cases u
        rfl
    · rintro h ⟨f, hf, v, hv⟩
      rw [h f hf] at hv
      cases hv
  unfold mainExitCode
  by_cases hc : countViolations ctx files > 0
  · rw [if_pos hc]
    refine ⟨⟨fun _ => hiff.mp hc, fun _ => rfl⟩, ?_⟩
    constructor
    · intro h10
      exact absurd h10 (by omega)
    · intro hall
      exact absurd (hiff.mp hc) (hok.mpr hall)
  · rw [if_neg hc]
    refine ⟨?_, ?_⟩
    · constructor
      · intro h01
        exact absurd h01 (by omega)
      · intro hex
        exact absurd (hiff.mpr hex) hc
    · exact ⟨fun _ => hok.mp (fun hex => hc (hiff.mpr hex)), fun _ => rfl⟩

end ArchitectLinter
